import Mathlib

/-!
Verification of the XTS mode core (`src/xts/src/xts_core.rs`).

Blocks, tweaks and buffers are modelled as `List Nat` of byte values
(each `< 256` where that matters).  In-place mutation is modelled by
state passing: every operation returns the updated context / buffer.
The cipher engine (trait methods `process_inplace`, `process_par_inplace`,
`get_iv_mut`, `is_decrypt` and the type-level `BlockSize`) becomes the
structure `XtsCtx` together with an explicit `bs : Nat` parameter.
-/

namespace XtsCore

/-- Bytewise XOR of two byte lists.
Modelled from the spec: the helper `xor` from `crate::xor` is not under
`src/`; the spec (§4.3) says "XOR block with tweak", a bytewise XOR of two
equal-length blocks. -/
def xorBytes (a b : List Nat) : List Nat :=
  List.zipWith (fun x y => x ^^^ y) a b

/-- One step of the little-endian shift-left-by-one carry chain over a byte
list: the incoming carry enters bit 0 of the head byte, the carry out of each
byte feeds the next byte.  Returns the shifted list and the final carry. -/
def shlBytes : Nat → List Nat → List Nat × Nat
  | cin, [] => ([], cin)
  | cin, b :: rest =>
    let r := shlBytes ((2 * b + cin) / 256) rest
    ((2 * b + cin) % 256 :: r.1, r.2)

/-- One step of the little-endian shift-right-by-one carry chain: the incoming
carry enters bit 7 of the last byte, the bit shifted out of each byte feeds the
previous byte; the bit shifted out of the head byte is returned. -/
def shrBytes : Nat → List Nat → List Nat × Nat
  | cin, [] => ([], cin)
  | cin, b :: rest =>
    let r := shrBytes cin rest
    ((b / 2 + 128 * r.2) :: r.1, b % 2)

/-- XOR a constant into the head byte of a list. -/
def xorHead (k : Nat) : List Nat → List Nat
  | [] => []
  | b :: rest => (b ^^^ k) :: rest

/-- Multiplication of a tweak by the field generator of GF(2^128).
Modelled from the spec: `gf_mul` from `crate::gf` is not under `src/`; the
spec (§4.1) says it multiplies the tweak by x under the reduction polynomial
x^128 + x^7 + x^2 + x + 1 (a bit-shift plus conditional XOR of the fixed
constant 0x87 into the low byte) and returns the bit that overflowed out of
the top of the representation. -/
def gfMul (t : List Nat) : List Nat × Nat :=
  let r := shlBytes 0 t
  (if r.2 = 0 then r.1 else xorHead 135 r.1, r.2)

/-- Division of a tweak by the field generator given the carry previously
returned by `gfMul`.
Modelled from the spec: `gf_reverse_mul` from `crate::gf` is not under
`src/`; the spec (§4.1) says it is the inverse operation, reintroducing the
carry bit at the top of the representation. -/
def gfReverseMul (t : List Nat) (carry : Nat) : List Nat :=
  (shrBytes carry (if carry = 0 then t else xorHead 135 t)).1

/-- The cipher-engine context: the `Xts` trait object.  `procOne` is
`process_inplace` (the raw single-block primitive), `procPar` is
`process_par_inplace`, `isDecrypt` is `Self::is_decrypt()`, and `iv` is the
tweak reached through `get_iv_mut`. -/
structure XtsCtx where
  procOne : List Nat → List Nat
  procPar : List (List Nat) → List (List Nat)
  isDecrypt : Bool
  iv : List Nat

/-- `precompute_iv`: clone the input block into `output`, encrypt the clone in
place, return it.  The first component of the result is the caller's input
block after the call (never written), the second is the returned block. -/
def precompute_iv (encryptBlock : List Nat → List Nat) (iv : List Nat) :
    List Nat × List Nat :=
  let output := iv
  let output := encryptBlock output
  (iv, output)

/-- `process_block_inplace`: XOR the block with the tweak, apply the raw
primitive, XOR with the tweak again, then advance the tweak by one GF step. -/
def processBlockInplace (c : XtsCtx) (b : List Nat) : XtsCtx × List Nat :=
  let b1 := xorBytes b c.iv
  let b2 := c.procOne b1
  let b3 := xorBytes b2 c.iv
  ({ c with iv := (gfMul c.iv).1 }, b3)

/-- `process_par_blocks_inplace`, first loop: save each lane's tweak value,
XOR the lane with it, advance the tweak.  Returns (saved tweaks, XORed
blocks, final tweak). -/
def parPhase1 : List Nat → List (List Nat) →
    List (List Nat) × List (List Nat) × List Nat
  | iv, [] => ([], [], iv)
  | iv, b :: rest =>
    let r := parPhase1 (gfMul iv).1 rest
    (iv :: r.1, xorBytes b iv :: r.2.1, r.2.2)

/-- `process_par_blocks_inplace`: phase 1 as above, then the batched raw
primitive across all lanes, then XOR each lane with its saved tweak. -/
def processParBlocksInplace (c : XtsCtx) (blocks : List (List Nat)) :
    XtsCtx × List (List Nat) :=
  let p := parPhase1 c.iv blocks
  let processed := c.procPar p.2.1
  ({ c with iv := p.2.2 }, List.zipWith (fun b i => xorBytes b i) processed p.1)

/-- Sequential reference: `process_block_inplace` applied to each block in
order, threading the context. -/
def processBlocksSeq (c : XtsCtx) : List (List Nat) → XtsCtx × List (List Nat)
  | [] => (c, [])
  | b :: rest =>
    let r := processBlockInplace c b
    let r2 := processBlocksSeq r.1 rest
    (r2.1, r.2 :: r2.2)

/-- `process_tail_blocks_inplace`: for each block, XOR with the tweak, call
`process_block_inplace`, XOR with the (now advanced) tweak, advance the tweak
again — exactly as written in the source. -/
def processTailBlocksInplace (c : XtsCtx) : List (List Nat) → XtsCtx × List (List Nat)
  | [] => (c, [])
  | b :: rest =>
    let b1 := xorBytes b c.iv
    let r := processBlockInplace c b1
    let b2 := xorBytes r.2 r.1.iv
    let c2 := { r.1 with iv := (gfMul r.1.iv).1 }
    let r2 := processTailBlocksInplace c2 rest
    (r2.1, b2 :: r2.2)

/-- The decrypt branch of `ciphertext_stealing` for the penultimate block:
advance the tweak in place (recording the carry), XOR/process/XOR the
penultimate block with the advanced tweak, then restore the tweak via
`gf_reverse_mul` using the recorded carry. -/
def ctsProcessPenultimateDecrypt (c : XtsCtx) (stlb : List Nat) :
    XtsCtx × List Nat :=
  let adv := gfMul c.iv
  let b1 := xorBytes stlb adv.1
  let b2 := c.procOne b1
  let b3 := xorBytes b2 adv.1
  ({ c with iv := gfReverseMul adv.1 adv.2 }, b3)

/-- `ciphertext_stealing`: process the second-to-last block (with a one-step
tweak look-ahead and restore when decrypting), swap the first
`remaining_bytes` bytes of that block with the trailing remainder, then
process the newly assembled block at the front. -/
def ciphertextStealing (bs : Nat) (c : XtsCtx) (buffer : List Nat) :
    XtsCtx × List Nat :=
  let remainingBytes := buffer.length - bs
  let stlb := buffer.take bs
  let tail := buffer.drop bs
  let r1 :=
    if c.isDecrypt then ctsProcessPenultimateDecrypt c stlb
    else processBlockInplace c stlb
  let prevAfterSwap := tail ++ r1.2.drop remainingBytes
  let curAfterSwap := r1.2.take remainingBytes
  let r2 := processBlockInplace r1.1 prevAfterSwap
  (r2.1, r2.2 ++ curAfterSwap)

/-- The stealing condition computed by `process_all_in_place`:
`buffer.len() % Self::block_size() == 0`. -/
def needStealing (bs len : Nat) : Bool :=
  len % bs == 0

/-- The slice handed to `ciphertext_stealing` when stealing is selected:
`buffer.split_at_mut((buffer.len() / block_size - 1) * block_size)`'s right
half. -/
def stealingSlice (bs : Nat) (buf : List Nat) : List Nat :=
  buf.drop ((buf.length / bs - 1) * bs)

/-- `chunks_exact_mut(block_size)` driving `process_block_inplace`: process
`n` leading chunks of `bs` bytes each and leave the rest untouched. -/
def processChunksN (bs : Nat) : Nat → XtsCtx → List Nat → XtsCtx × List Nat
  | 0, c, buf => (c, buf)
  | n + 1, c, buf =>
    let r := processBlockInplace c (buf.take bs)
    let r2 := processChunksN bs n r.1 (buf.drop bs)
    (r2.1, r.2 ++ r2.2)

/-- `process_all_in_place`: error out if the buffer is shorter than one block;
compute `need_stealing`; split off the final full block when stealing is
selected; process the leading region block by block with
`chunks_exact_mut(block_size)`; finally run `ciphertext_stealing` on the
split-off slice when stealing is selected.  The `Bool` is `true` on `Ok`;
on `Err` the context and buffer are returned untouched. -/
def processAllInPlace (bs : Nat) (c : XtsCtx) (buffer : List Nat) :
    Bool × XtsCtx × List Nat :=
  if buffer.length < bs then (false, c, buffer)
  else
    let steal := needStealing bs buffer.length
    let headPart := if steal
      then buffer.take ((buffer.length / bs - 1) * bs)
      else buffer
    let remainingBuffer := if steal then stealingSlice bs buffer else []
    let r := processChunksN bs (headPart.length / bs) c headPart
    if steal then
      let r2 := ciphertextStealing bs r.1 remainingBuffer
      (true, r2.1, r.2 ++ r2.2)
    else
      (true, r.1, r.2 ++ remainingBuffer)

/-- A toy single-block primitive for concrete instantiations: XOR every byte
with 90.  It is length preserving and its own inverse. -/
def xorEngineOne (l : List Nat) : List Nat :=
  l.map (fun x => x ^^^ 90)

/-- Batched version of `xorEngineOne`, applied lane by lane. -/
def xorEnginePar (ls : List (List Nat)) : List (List Nat) :=
  ls.map xorEngineOne

/-- A concrete encryption context with block size 2 and initial tweak `[7, 9]`. -/
def encCtx : XtsCtx := ⟨xorEngineOne, xorEnginePar, false, [7, 9]⟩

/-- A concrete decryption context with block size 2 and initial tweak `[7, 9]`. -/
def decCtx : XtsCtx := ⟨xorEngineOne, xorEnginePar, true, [7, 9]⟩

/-- A concrete context with the identity block primitive and tweak `[1, 0]`. -/
def tailCtx : XtsCtx := ⟨fun l => l, fun ls => ls, false, [1, 0]⟩

/-! ### Basic lemmas about the byte-level operations -/

lemma length_xorBytes (a b : List Nat) :
    (xorBytes a b).length = min a.length b.length :=
  List.length_zipWith _ _ _

lemma xorBytes_cons (x y : Nat) (xs ys : List Nat) :
    xorBytes (x :: xs) (y :: ys) = (x ^^^ y) :: xorBytes xs ys := rfl

lemma xorBytes_cancel (a b : List Nat) (h : a.length ≤ b.length) :
    xorBytes (xorBytes a b) b = a := by
  induction a generalizing b with
  | nil => simp [xorBytes]
  | cons x xs ih =>
    cases b with
    | nil => simp at h
    | cons y ys =>
      simp only [xorBytes_cons]
      rw [Nat.xor_cancel_right, ih ys (by simpa using h)]

lemma shlBytes_length (cin : Nat) (l : List Nat) :
    (shlBytes cin l).1.length = l.length := by
  induction l generalizing cin with
  | nil => rfl
  | cons b rest ih => simp [shlBytes, ih]

lemma shlBytes_bound (cin : Nat) (l : List Nat) (hc : cin < 2)
    (h : ∀ x ∈ l, x < 256) :
    (∀ x ∈ (shlBytes cin l).1, x < 256) ∧ (shlBytes cin l).2 < 2 := by
  induction l generalizing cin with
  | nil => exact ⟨by simp [shlBytes], by simpa [shlBytes] using hc⟩
  | cons b rest ih =>
    have hb : b < 256 := h b (by simp)
    have hcb : (2 * b + cin) / 256 < 2 := by omega
    have hr := ih ((2 * b + cin) / 256) hcb (fun x hx => h x (by simp [hx]))
    constructor
    · intro x hx
      simp only [shlBytes, List.mem_cons] at hx
      rcases hx with hx | hx
      · omega
      · exact hr.1 x hx
    · simpa [shlBytes] using hr.2

lemma shrBytes_shlBytes (cin : Nat) (l : List Nat) (hc : cin < 2)
    (h : ∀ x ∈ l, x < 256) :
    shrBytes (shlBytes cin l).2 (shlBytes cin l).1 = (l, cin) := by
  induction l generalizing cin with
  | nil => simp [shlBytes, shrBytes]
  | cons b rest ih =>
    have hb : b < 256 := h b (by simp)
    have hcb : (2 * b + cin) / 256 < 2 := by omega
    have hr := ih ((2 * b + cin) / 256) hcb (fun x hx => h x (by simp [hx]))
    simp only [shlBytes, shrBytes, hr, Prod.mk.injEq, List.cons.injEq]
    refine ⟨⟨by omega, trivial⟩, by omega⟩

lemma xorHead_xorHead (k : Nat) (l : List Nat) :
    xorHead k (xorHead k l) = l := by
  cases l with
  | nil => rfl
  | cons b rest => simp [xorHead, Nat.xor_cancel_right]

lemma xorHead_length (k : Nat) (l : List Nat) :
    (xorHead k l).length = l.length := by
  cases l <;> rfl

lemma xorHead_bound (k : Nat) (l : List Nat) (hk : k < 256)
    (h : ∀ x ∈ l, x < 256) : ∀ x ∈ xorHead k l, x < 256 := by
  cases l with
  | nil => simp [xorHead]
  | cons b rest =>
    intro x hx
    simp only [xorHead, List.mem_cons] at hx
    rcases hx with hx | hx
    · subst hx
      have h8 : (256 : Nat) = 2 ^ 8 := rfl
      rw [h8]
      exact Nat.xor_lt_two_pow (by rw [← h8]; exact h b (by simp)) (by rw [← h8]; exact hk)
    · exact h x (by simp [hx])

lemma gfMul_length (t : List Nat) : (gfMul t).1.length = t.length := by
  unfold gfMul
  by_cases hc : (shlBytes 0 t).2 = 0 <;>
    simp [hc, xorHead_length, shlBytes_length]

lemma gfMul_bound (t : List Nat) (h : ∀ x ∈ t, x < 256) :
    ∀ x ∈ (gfMul t).1, x < 256 := by
  have hs := shlBytes_bound 0 t (by omega) h
  unfold gfMul
  by_cases hc : (shlBytes 0 t).2 = 0
  · simpa [hc] using hs.1
  · simpa [hc] using xorHead_bound 135 (shlBytes 0 t).1 (by omega) hs.1

/-- `gfReverseMul` undoes `gfMul`, given the carry it returned: the core GF
round-trip identity. -/
lemma gfReverseMul_gfMul (t : List Nat) (h : ∀ x ∈ t, x < 256) :
    gfReverseMul (gfMul t).1 (gfMul t).2 = t := by
  have hrt := shrBytes_shlBytes 0 t (by omega) h
  unfold gfMul gfReverseMul
  by_cases hc : (shlBytes 0 t).2 = 0
  · simp only [if_pos hc]
    rw [hrt]
  · simp only [if_neg hc]
    rw [xorHead_xorHead, hrt]

/-- The slice handed to `ciphertext_stealing` has length exactly one block
whenever stealing is selected on a buffer of at least one block. -/
lemma stealingSlice_len (bs : Nat) (buf : List Nat) (hbs : 0 < bs)
    (hmod : buf.length % bs = 0) (hlen : bs ≤ buf.length) :
    (stealingSlice bs buf).length = bs := by
  obtain ⟨q, hq⟩ := Nat.dvd_of_mod_eq_zero hmod
  have hq1 : 1 ≤ q := by
    rcases Nat.eq_zero_or_pos q with h0 | h1
    · subst h0
      rw [Nat.mul_zero] at hq
      omega
    · exact h1
  have hdiv : buf.length / bs = q := by
    rw [hq, Nat.mul_div_cancel_left q hbs]
  have hble : bs ≤ bs * q := by
    calc bs = bs * 1 := by ring
    _ ≤ bs * q := Nat.mul_le_mul_left bs hq1
  rw [stealingSlice, List.length_drop, hdiv, Nat.sub_one_mul, hq,
    Nat.mul_comm q bs, Nat.sub_sub_self hble]

/-! ### Claim theorems -/

/-- Claim C5: `process_block_inplace` XORs the block with the tweak, applies the
engine's single-block primitive, XORs the result with the same tweak again,
and leaves the tweak advanced by exactly one GF-generator multiplication
step. -/
theorem processBlockInplace_spec (c : XtsCtx) (b : List Nat) :
    processBlockInplace c b =
      ({ c with iv := (gfMul c.iv).1 },
        xorBytes (c.procOne (xorBytes b c.iv)) c.iv) := rfl

/-- Claim C9: `precompute_iv` returns exactly the cipher engine's single-block
encryption of the input block, and the caller's input block is unmodified
(the first component of the state-passing result is the input, untouched). -/
theorem precompute_iv_spec (encryptBlock : List Nat → List Nat)
    (iv : List Nat) :
    precompute_iv encryptBlock iv = (iv, encryptBlock iv) := rfl

/-- Claim C4: `process_all_in_place` fails exactly when the buffer is shorter than
one block, and in that case it returns with the context and the buffer
untouched (the length check precedes any write). -/
theorem processAllInPlace_invalid_length (bs : Nat) (c : XtsCtx)
    (buffer : List Nat) :
    ((processAllInPlace bs c buffer).1 = false ↔ buffer.length < bs) ∧
    (buffer.length < bs → processAllInPlace bs c buffer = (false, c, buffer)) := by
  constructor
  · by_cases h : buffer.length < bs
    · simp [processAllInPlace, h]
    · simp only [processAllInPlace, if_neg h]
      constructor
      · intro hfalse
        by_cases hs : needStealing bs buffer.length <;> simp [hs] at hfalse
      · intro hlt; exact absurd hlt h
  · intro h
    simp [processAllInPlace, h]

/-- Witness for C4 at block size 2 and the one-byte buffer `[5]`. -/
theorem processAllInPlace_invalid_length_witness :
    ((processAllInPlace 2 encCtx [5]).1 = false ↔ ([5] : List Nat).length < 2) ∧
    (([5] : List Nat).length < 2 →
      processAllInPlace 2 encCtx [5] = (false, encCtx, [5])) :=
  processAllInPlace_invalid_length 2 encCtx [5]

/-- Claim C1 is refuted by the code: `need_stealing` is
`buffer.len() % block_size == 0`, so the finisher is selected exactly on
exact multiples — the inverse of the claimed condition.  At block size 2 a
3-byte buffer (non-multiple) skips the finisher (its trailing byte comes back
untouched), while a 4-byte buffer (exact multiple) selects it. -/
theorem needStealing_inverted :
    needStealing 2 3 = false ∧ 3 % 2 ≠ 0 ∧
    needStealing 2 4 = true ∧ 4 % 2 = 0 ∧
    (processAllInPlace 2 encCtx [1, 2, 3]).2.2.drop 2 = [3] := by decide

/-- Claim C2 is refuted by the code: on the 3-byte buffer `[1, 2, 3]` with block
size 2, `process_all_in_place` reports success but returns the trailing
remainder byte equal to its input value — the final partial block is never
transformed because `need_stealing` is inverted. -/
theorem processAllInPlace_leaves_tail_unprocessed :
    (processAllInPlace 2 encCtx [1, 2, 3]).1 = true ∧
    (processAllInPlace 2 encCtx [1, 2, 3]).2.2.drop 2 = [3] ∧
    ([1, 2, 3] : List Nat).drop 2 = [3] := by decide

/-- Claim C8 is refuted by the code: `process_tail_blocks_inplace` XORs and
advances around a call to `process_block_inplace` that already does both, so
on a single block it advances the tweak twice (to `[4, 0]` instead of
`[2, 0]`) and produces `[3, 0]` where the sequential reference produces
`[0, 0]`. -/
theorem processTailBlocksInplace_not_seq :
    (processTailBlocksInplace tailCtx [[0, 0]]).2 = [[3, 0]] ∧
    (processTailBlocksInplace tailCtx [[0, 0]]).1.iv = [4, 0] ∧
    (processBlocksSeq tailCtx [[0, 0]]).2 = [[0, 0]] ∧
    (processBlocksSeq tailCtx [[0, 0]]).1.iv = [2, 0] ∧
    (processTailBlocksInplace tailCtx [[0, 0]]).2 ≠
      (processBlocksSeq tailCtx [[0, 0]]).2 ∧
    (processTailBlocksInplace tailCtx [[0, 0]]).1.iv ≠
      (processBlocksSeq tailCtx [[0, 0]]).1.iv := by decide

/-- Claim C10: whenever `process_all_in_place` selects stealing on a valid buffer,
the slice it hands to `ciphertext_stealing` has length exactly one block, so
the `buffer.len() - block_size` subtraction cannot underflow and both
`buffer[0..block_size]` conversions see a full block. -/
theorem stealingSlice_full_block (bs : Nat) (buf : List Nat) (hbs : 0 < bs)
    (hsteal : needStealing bs buf.length = true) (hlen : bs ≤ buf.length) :
    (stealingSlice bs buf).length = bs ∧
    bs ≤ (stealingSlice bs buf).length ∧
    ((stealingSlice bs buf).take bs).length = bs := by
  have hmod : buf.length % bs = 0 := by simpa [needStealing] using hsteal
  have h := stealingSlice_len bs buf hbs hmod hlen
  exact ⟨h, by omega, by rw [List.length_take, h]; omega⟩

/-- Witness for C10 at block size 2 and the four-byte buffer `[1, 2, 3, 4]`. -/
theorem stealingSlice_full_block_witness :
    (stealingSlice 2 [1, 2, 3, 4]).length = 2 ∧
    2 ≤ (stealingSlice 2 [1, 2, 3, 4]).length ∧
    ((stealingSlice 2 [1, 2, 3, 4]).take 2).length = 2 :=
  stealingSlice_full_block 2 [1, 2, 3, 4] (by decide) (by decide) (by decide)

/-- Claim C7: `gf_reverse_mul` applied to an advanced tweak with the carry returned
by `gf_mul` reconstructs the tweak exactly; consequently the decrypt branch of
`ciphertext_stealing` leaves the context's tweak, after the penultimate block
is processed with the looked-ahead tweak, at exactly its value on entry. -/
theorem gf_reverse_restores_tweak (c : XtsCtx) (b : List Nat)
    (hiv : ∀ x ∈ c.iv, x < 256) :
    (∀ t : List Nat, (∀ x ∈ t, x < 256) →
      gfReverseMul (gfMul t).1 (gfMul t).2 = t) ∧
    (ctsProcessPenultimateDecrypt c b).1.iv = c.iv := by
  refine ⟨fun t ht => gfReverseMul_gfMul t ht, ?_⟩
  simp [ctsProcessPenultimateDecrypt, gfReverseMul_gfMul c.iv hiv]

/-- Witness for C7 at the concrete decryption context `decCtx`. -/
theorem gf_reverse_restores_tweak_witness :
    (∀ t : List Nat, (∀ x ∈ t, x < 256) →
      gfReverseMul (gfMul t).1 (gfMul t).2 = t) ∧
    (ctsProcessPenultimateDecrypt decCtx [1, 2]).1.iv = decCtx.iv :=
  gf_reverse_restores_tweak decCtx [1, 2] (by decide)

/-- Claim C6: when the engine's batched primitive applies the single-block
primitive independently to each lane, `process_par_blocks_inplace` is
bit-identical to the same number of sequential `process_block_inplace` calls:
same output blocks and same final tweak. -/
theorem processParBlocksInplace_eq_seq (c : XtsCtx) (blocks : List (List Nat))
    (hpar : ∀ ls : List (List Nat), c.procPar ls = ls.map c.procOne) :
    processParBlocksInplace c blocks = processBlocksSeq c blocks := by
  induction blocks generalizing c with
  | nil => simp [processParBlocksInplace, parPhase1, processBlocksSeq, hpar]
  | cons b rest ih =>
    have ihc := ih { c with iv := (gfMul c.iv).1 } hpar
    have h1 : processParBlocksInplace c (b :: rest) =
        ((processParBlocksInplace { c with iv := (gfMul c.iv).1 } rest).1,
          xorBytes (c.procOne (xorBytes b c.iv)) c.iv ::
            (processParBlocksInplace { c with iv := (gfMul c.iv).1 } rest).2) := by
      simp [processParBlocksInplace, parPhase1, hpar]
    have h2 : processBlocksSeq c (b :: rest) =
        ((processBlocksSeq { c with iv := (gfMul c.iv).1 } rest).1,
          xorBytes (c.procOne (xorBytes b c.iv)) c.iv ::
            (processBlocksSeq { c with iv := (gfMul c.iv).1 } rest).2) := rfl
    rw [h1, h2, ihc]

/-- Witness for C6 at the concrete context `encCtx` on a batch of three
blocks. -/
theorem processParBlocksInplace_eq_seq_witness :
    processParBlocksInplace encCtx [[1, 2], [3, 4], [5, 6]] =
      processBlocksSeq encCtx [[1, 2], [3, 4], [5, 6]] :=
  processParBlocksInplace_eq_seq encCtx [[1, 2], [3, 4], [5, 6]]
    (fun _ => rfl)

/-! ### Supporting lemmas for the round-trip theorem -/

lemma xex_length (bs : Nat) (e : List Nat → List Nat) (t x : List Nat)
    (ht : t.length = bs) (hx : x.length = bs)
    (hlen : ∀ y : List Nat, y.length = bs → (e y).length = bs) :
    (xorBytes (e (xorBytes x t)) t).length = bs := by
  have h1 : (xorBytes x t).length = bs := by
    rw [length_xorBytes, ht, hx, Nat.min_self]
  rw [length_xorBytes, hlen _ h1, ht, Nat.min_self]

lemma xex_inv (bs : Nat) (e d : List Nat → List Nat) (t x : List Nat)
    (ht : t.length = bs) (hx : x.length = bs)
    (hlen : ∀ y : List Nat, y.length = bs → (e y).length = bs)
    (hinv : ∀ y : List Nat, y.length = bs → d (e y) = y) :
    xorBytes (d (xorBytes (xorBytes (e (xorBytes x t)) t) t)) t = x := by
  have h1 : (xorBytes x t).length = bs := by
    rw [length_xorBytes, ht, hx, Nat.min_self]
  have h2 : (e (xorBytes x t)).length = bs := hlen _ h1
  rw [xorBytes_cancel _ t (by rw [h2, ht]), hinv _ h1,
    xorBytes_cancel x t (by rw [hx, ht])]

lemma processBlockInplace_fst (c : XtsCtx) (b : List Nat) :
    (processBlockInplace c b).1 = { c with iv := (gfMul c.iv).1 } := rfl

lemma processBlockInplace_snd (c : XtsCtx) (b : List Nat) :
    (processBlockInplace c b).2 =
      xorBytes (c.procOne (xorBytes b c.iv)) c.iv := rfl

lemma processChunksN_succ (bs n : Nat) (c : XtsCtx) (buf : List Nat) :
    processChunksN bs (n + 1) c buf =
      ((processChunksN bs n (processBlockInplace c (buf.take bs)).1
          (buf.drop bs)).1,
        (processBlockInplace c (buf.take bs)).2 ++
          (processChunksN bs n (processBlockInplace c (buf.take bs)).1
            (buf.drop bs)).2) := rfl

lemma processChunksN_ctx (bs n : Nat) (c : XtsCtx) (buf : List Nat) :
    (processChunksN bs n c buf).1 =
      { c with iv := (fun t => (gfMul t).1)^[n] c.iv } := by
  induction n generalizing c buf with
  | zero => rfl
  | succ n ih =>
    rw [processChunksN_succ]
    rw [ih, processBlockInplace_fst]
    simp [Function.iterate_succ_apply]

lemma gfIter_length (n : Nat) (t : List Nat) :
    ((fun u => (gfMul u).1)^[n] t).length = t.length := by
  induction n generalizing t with
  | zero => rfl
  | succ n ih => rw [Function.iterate_succ_apply, ih, gfMul_length]

lemma gfIter_bound (n : Nat) (t : List Nat) (h : ∀ x ∈ t, x < 256) :
    ∀ x ∈ (fun u => (gfMul u).1)^[n] t, x < 256 := by
  induction n generalizing t with
  | zero => exact h
  | succ n ih =>
    rw [Function.iterate_succ_apply]
    exact ih _ (gfMul_bound t h)

lemma processChunksN_length (bs : Nat) (e : List Nat → List Nat)
    (ep : List (List Nat) → List (List Nat)) (de : Bool) (n : Nat)
    (iv buf : List Nat) (hiv : iv.length = bs)
    (hlen : ∀ y : List Nat, y.length = bs → (e y).length = bs)
    (hbuf : n * bs ≤ buf.length) :
    (processChunksN bs n ⟨e, ep, de, iv⟩ buf).2.length = buf.length := by
  induction n generalizing iv buf with
  | zero => rfl
  | succ n ih =>
    have hsm : n * bs + bs ≤ buf.length := by
      rw [← Nat.succ_mul]; exact hbuf
    have htake : (buf.take bs).length = bs := by
      rw [List.length_take]; omega
    rw [processChunksN_succ, processBlockInplace_fst]
    have hhead := xex_length bs e iv (buf.take bs) hiv htake hlen
    rw [List.length_append, processBlockInplace_snd]
    have hrec := ih ((gfMul iv).1) (buf.drop bs)
      (by rw [gfMul_length, hiv]) (by rw [List.length_drop]; omega)
    simp only at hrec
    rw [hrec]
    show (xorBytes (e (xorBytes (buf.take bs) iv)) iv).length +
        (buf.drop bs).length = buf.length
    rw [hhead, List.length_drop]
    omega

lemma processChunksN_roundTrip (bs : Nat) (e d : List Nat → List Nat)
    (ep dp : List (List Nat) → List (List Nat)) (de dd : Bool) (n : Nat)
    (iv buf : List Nat) (hiv : iv.length = bs) (hbuf : n * bs ≤ buf.length)
    (hlen : ∀ y : List Nat, y.length = bs → (e y).length = bs)
    (hinv : ∀ y : List Nat, y.length = bs → d (e y) = y) :
    (processChunksN bs n ⟨d, dp, dd, iv⟩
      (processChunksN bs n ⟨e, ep, de, iv⟩ buf).2).2 = buf := by
  induction n generalizing iv buf with
  | zero => rfl
  | succ n ih =>
    have hsm : n * bs + bs ≤ buf.length := by
      rw [← Nat.succ_mul]; exact hbuf
    have htake : (buf.take bs).length = bs := by
      rw [List.length_take]; omega
    have hX : ((processBlockInplace (⟨e, ep, de, iv⟩ : XtsCtx)
        (buf.take bs)).2).length = bs := by
      rw [processBlockInplace_snd]
      exact xex_length bs e iv (buf.take bs) hiv htake hlen
    have hD : (processBlockInplace (⟨d, dp, dd, iv⟩ : XtsCtx)
        (processBlockInplace (⟨e, ep, de, iv⟩ : XtsCtx)
          (buf.take bs)).2).2 = buf.take bs := by
      rw [processBlockInplace_snd, processBlockInplace_snd]
      exact xex_inv bs e d iv (buf.take bs) hiv htake hlen hinv
    rw [processChunksN_succ, processChunksN_succ, List.take_left' hX,
      List.drop_left' hX, hD]
    show buf.take bs ++
        (processChunksN bs n (⟨d, dp, dd, (gfMul iv).1⟩ : XtsCtx)
          (processChunksN bs n (⟨e, ep, de, (gfMul iv).1⟩ : XtsCtx)
            (buf.drop bs)).2).2 = buf
    rw [ih ((gfMul iv).1) (buf.drop bs) (by rw [gfMul_length, hiv])
      (by rw [List.length_drop]; omega)]
    exact List.take_append_drop bs buf

lemma ctsProcessPenultimateDecrypt_fst (c : XtsCtx) (b : List Nat) :
    (ctsProcessPenultimateDecrypt c b).1 =
      { c with iv := gfReverseMul (gfMul c.iv).1 (gfMul c.iv).2 } := rfl

lemma ctsProcessPenultimateDecrypt_snd (c : XtsCtx) (b : List Nat) :
    (ctsProcessPenultimateDecrypt c b).2 =
      xorBytes (c.procOne (xorBytes b (gfMul c.iv).1)) (gfMul c.iv).1 := rfl

/-- On a buffer of exactly one block (the only shape `process_all_in_place`
ever hands it), encrypt-direction `ciphertext_stealing` degenerates to
processing that block twice: the swap moves zero bytes. -/
lemma ciphertextStealing_block_enc (bs : Nat) (c : XtsCtx) (buffer : List Nat)
    (hb : buffer.length = bs) (hc : c.isDecrypt = false) :
    ciphertextStealing bs c buffer =
      processBlockInplace (processBlockInplace c buffer).1
        (processBlockInplace c buffer).2 := by
  have h1 : buffer.take bs = buffer := by rw [← hb, List.take_length]
  have h2 : buffer.drop bs = [] := by rw [← hb, List.drop_length]
  have h3 : buffer.length - bs = 0 := by omega
  unfold ciphertextStealing
  rw [hc]
  simp [h1, h2, h3]

/-- On a buffer of exactly one block, decrypt-direction `ciphertext_stealing`
processes that block with the looked-ahead tweak (restoring the tweak
afterwards) and then once more with the entry tweak. -/
lemma ciphertextStealing_block_dec (bs : Nat) (c : XtsCtx) (buffer : List Nat)
    (hb : buffer.length = bs) (hc : c.isDecrypt = true) :
    ciphertextStealing bs c buffer =
      processBlockInplace (ctsProcessPenultimateDecrypt c buffer).1
        (ctsProcessPenultimateDecrypt c buffer).2 := by
  have h1 : buffer.take bs = buffer := by rw [← hb, List.take_length]
  have h2 : buffer.drop bs = [] := by rw [← hb, List.drop_length]
  have h3 : buffer.length - bs = 0 := by omega
  unfold ciphertextStealing
  rw [hc]
  simp [h1, h2, h3]

lemma ciphertextStealing_enc_length (bs : Nat) (e : List Nat → List Nat)
    (ep : List (List Nat) → List (List Nat)) (iv buffer : List Nat)
    (hiv : iv.length = bs) (hb : buffer.length = bs)
    (hlen : ∀ y : List Nat, y.length = bs → (e y).length = bs) :
    (ciphertextStealing bs ⟨e, ep, false, iv⟩ buffer).2.length = bs := by
  have hgl : ((gfMul iv).1).length = bs := by rw [gfMul_length, hiv]
  have hX1 : (xorBytes (e (xorBytes buffer iv)) iv).length = bs :=
    xex_length bs e iv buffer hiv hb hlen
  rw [ciphertextStealing_block_enc bs _ buffer hb rfl]
  show (xorBytes (e (xorBytes (xorBytes (e (xorBytes buffer iv)) iv)
      (gfMul iv).1)) (gfMul iv).1).length = bs
  exact xex_length bs e ((gfMul iv).1) _ hgl hX1 hlen

lemma ciphertextStealing_roundTrip (bs : Nat) (e d : List Nat → List Nat)
    (ep dp : List (List Nat) → List (List Nat)) (iv b : List Nat)
    (hiv : iv.length = bs) (hivb : ∀ x ∈ iv, x < 256) (hb : b.length = bs)
    (hlen : ∀ y : List Nat, y.length = bs → (e y).length = bs)
    (hinv : ∀ y : List Nat, y.length = bs → d (e y) = y) :
    (ciphertextStealing bs ⟨d, dp, true, iv⟩
      (ciphertextStealing bs ⟨e, ep, false, iv⟩ b).2).2 = b := by
  have hgl : ((gfMul iv).1).length = bs := by rw [gfMul_length, hiv]
  have hX1 : (xorBytes (e (xorBytes b iv)) iv).length = bs :=
    xex_length bs e iv b hiv hb hlen
  have henc : (ciphertextStealing bs ⟨e, ep, false, iv⟩ b).2 =
      xorBytes (e (xorBytes (xorBytes (e (xorBytes b iv)) iv) (gfMul iv).1))
        (gfMul iv).1 := by
    rw [ciphertextStealing_block_enc bs _ b hb rfl]
    rfl
  have hC : (xorBytes (e (xorBytes (xorBytes (e (xorBytes b iv)) iv)
      (gfMul iv).1)) (gfMul iv).1).length = bs :=
    xex_length bs e ((gfMul iv).1) _ hgl hX1 hlen
  rw [henc, ciphertextStealing_block_dec bs _ _ hC rfl]
  have hctx : (ctsProcessPenultimateDecrypt (⟨d, dp, true, iv⟩ : XtsCtx)
      (xorBytes (e (xorBytes (xorBytes (e (xorBytes b iv)) iv) (gfMul iv).1))
        (gfMul iv).1)).1 = (⟨d, dp, true, iv⟩ : XtsCtx) := by
    rw [ctsProcessPenultimateDecrypt_fst]
    show (⟨d, dp, true, gfReverseMul (gfMul iv).1 (gfMul iv).2⟩ : XtsCtx) =
      (⟨d, dp, true, iv⟩ : XtsCtx)
    rw [gfReverseMul_gfMul iv hivb]
  have hsnd : (ctsProcessPenultimateDecrypt (⟨d, dp, true, iv⟩ : XtsCtx)
      (xorBytes (e (xorBytes (xorBytes (e (xorBytes b iv)) iv) (gfMul iv).1))
        (gfMul iv).1)).2 = xorBytes (e (xorBytes b iv)) iv := by
    rw [ctsProcessPenultimateDecrypt_snd]
    show xorBytes (d (xorBytes (xorBytes (e (xorBytes
        (xorBytes (e (xorBytes b iv)) iv) (gfMul iv).1)) (gfMul iv).1)
        (gfMul iv).1)) (gfMul iv).1 = _
    exact xex_inv bs e d ((gfMul iv).1) (xorBytes (e (xorBytes b iv)) iv)
      hgl hX1 hlen hinv
  rw [hctx, hsnd, processBlockInplace_snd]
  exact xex_inv bs e d iv b hiv hb hlen hinv

lemma processChunksN_ctx' (bs n : Nat) (p : List Nat → List Nat)
    (pp : List (List Nat) → List (List Nat)) (dir : Bool) (iv buf : List Nat) :
    (processChunksN bs n ⟨p, pp, dir, iv⟩ buf).1 =
      (⟨p, pp, dir, (fun t => (gfMul t).1)^[n] iv⟩ : XtsCtx) :=
  processChunksN_ctx bs n ⟨p, pp, dir, iv⟩ buf

/-- Shape of `process_all_in_place` when the buffer length is a non-multiple
of the block size: no stealing, `⌊len / bs⌋` chunks processed, remainder
returned untouched inside the chunk run. -/
lemma processAllInPlace_noSteal (bs : Nat) (c : XtsCtx) (buffer : List Nat)
    (h : bs ≤ buffer.length) (hs : buffer.length % bs ≠ 0) :
    processAllInPlace bs c buffer =
      (true, (processChunksN bs (buffer.length / bs) c buffer).1,
        (processChunksN bs (buffer.length / bs) c buffer).2) := by
  have h' : ¬ buffer.length < bs := by omega
  have hsb : needStealing bs buffer.length = false := by
    simp [needStealing, hs]
  simp [processAllInPlace, h', hsb]

/-- Shape of `process_all_in_place` when the buffer length is an exact
multiple of the block size: the buffer splits at `(len / bs - 1) * bs`, the
head is processed in chunks, and the final full block goes through
`ciphertext_stealing`. -/
lemma processAllInPlace_steal (bs : Nat) (c : XtsCtx) (buffer : List Nat)
    (hbs : 0 < bs) (h : bs ≤ buffer.length) (hs : buffer.length % bs = 0) :
    processAllInPlace bs c buffer =
      (true,
        (ciphertextStealing bs
          (processChunksN bs (buffer.length / bs - 1) c
            (buffer.take ((buffer.length / bs - 1) * bs))).1
          (buffer.drop ((buffer.length / bs - 1) * bs))).1,
        (processChunksN bs (buffer.length / bs - 1) c
          (buffer.take ((buffer.length / bs - 1) * bs))).2 ++
        (ciphertextStealing bs
          (processChunksN bs (buffer.length / bs - 1) c
            (buffer.take ((buffer.length / bs - 1) * bs))).1
          (buffer.drop ((buffer.length / bs - 1) * bs))).2) := by
  have h' : ¬ buffer.length < bs := by omega
  have hsb : needStealing bs buffer.length = true := by
    simp [needStealing, hs]
  have hmul : (buffer.length / bs - 1) * bs ≤ buffer.length := by
    calc (buffer.length / bs - 1) * bs
        ≤ (buffer.length / bs) * bs := Nat.mul_le_mul_right bs (Nat.sub_le _ _)
      _ ≤ buffer.length := Nat.div_mul_le_self _ _
  have hmin : ((buffer.length / bs - 1) * bs) ⊓ buffer.length =
      (buffer.length / bs - 1) * bs := inf_eq_left.mpr hmul
  simp [processAllInPlace, h', hsb, stealingSlice, hmin,
    Nat.mul_div_cancel _ hbs]

/-- Claim C3: for every buffer of at least one block and a fixed key/initial-tweak
pair, running `process_all_in_place` in decrypt direction (with the inverse
single-block primitive) on the result of `process_all_in_place` in encrypt
direction, starting from the same initial tweak, restores the buffer
exactly. -/
theorem processAllInPlace_roundTrip (bs : Nat) (e d : List Nat → List Nat)
    (ep dp : List (List Nat) → List (List Nat)) (iv buf : List Nat)
    (hbs : 0 < bs) (hiv : iv.length = bs) (hivb : ∀ x ∈ iv, x < 256)
    (hlen : ∀ y : List Nat, y.length = bs → (e y).length = bs)
    (hinv : ∀ y : List Nat, y.length = bs → d (e y) = y)
    (hbuf : bs ≤ buf.length) :
    (processAllInPlace bs ⟨d, dp, true, iv⟩
      (processAllInPlace bs ⟨e, ep, false, iv⟩ buf).2.2).2.2 = buf := by
  by_cases hmod : buf.length % bs = 0
  · -- stealing path: head chunks plus a one-block stealing slice
    have hx := stealingSlice_len bs buf hbs hmod hbuf
    have hmul : (buf.length / bs - 1) * bs ≤ buf.length := by
      calc (buf.length / bs - 1) * bs
          ≤ (buf.length / bs) * bs := Nat.mul_le_mul_right bs (Nat.sub_le _ _)
        _ ≤ buf.length := Nat.div_mul_le_self _ _
    have hheadlen : (buf.take ((buf.length / bs - 1) * bs)).length =
        (buf.length / bs - 1) * bs := by
      rw [List.length_take]
      exact Nat.min_eq_left hmul
    have hdroplen : (buf.drop ((buf.length / bs - 1) * bs)).length = bs := hx
    have hivn : ((fun t => (gfMul t).1)^[buf.length / bs - 1] iv).length = bs := by
      rw [gfIter_length, hiv]
    have hivnb : ∀ x ∈ (fun t => (gfMul t).1)^[buf.length / bs - 1] iv,
        x < 256 := gfIter_bound _ iv hivb
    have hEchunklen : (processChunksN bs (buf.length / bs - 1)
        (⟨e, ep, false, iv⟩ : XtsCtx)
        (buf.take ((buf.length / bs - 1) * bs))).2.length =
        (buf.length / bs - 1) * bs := by
      rw [processChunksN_length bs e ep false _ iv _ hiv hlen
        (le_of_eq hheadlen.symm), hheadlen]
    have hEctx := processChunksN_ctx' bs (buf.length / bs - 1) e ep false iv
      (buf.take ((buf.length / bs - 1) * bs))
    have hctsElen : (ciphertextStealing bs
        (processChunksN bs (buf.length / bs - 1) (⟨e, ep, false, iv⟩ : XtsCtx)
          (buf.take ((buf.length / bs - 1) * bs))).1
        (buf.drop ((buf.length / bs - 1) * bs))).2.length = bs := by
      rw [hEctx]
      exact ciphertextStealing_enc_length bs e ep _ _ hivn hdroplen hlen
    have hnbs : (buf.length / bs - 1) * bs + bs = buf.length := by
      have h2 := Nat.sub_add_cancel hmul
      have h3 : buf.length - (buf.length / bs - 1) * bs = bs := by
        rw [← List.length_drop]
        exact hdroplen
      rw [h3] at h2
      rw [Nat.add_comm] at h2
      exact h2
    have hEtot : ((processChunksN bs (buf.length / bs - 1)
        (⟨e, ep, false, iv⟩ : XtsCtx)
        (buf.take ((buf.length / bs - 1) * bs))).2 ++
        (ciphertextStealing bs
          (processChunksN bs (buf.length / bs - 1) (⟨e, ep, false, iv⟩ : XtsCtx)
            (buf.take ((buf.length / bs - 1) * bs))).1
          (buf.drop ((buf.length / bs - 1) * bs))).2).length = buf.length := by
      rw [List.length_append, hEchunklen, hctsElen]
      exact hnbs
    rw [processAllInPlace_steal bs _ buf hbs hbuf hmod]
    show (processAllInPlace bs (⟨d, dp, true, iv⟩ : XtsCtx)
        ((processChunksN bs (buf.length / bs - 1)
          (⟨e, ep, false, iv⟩ : XtsCtx)
          (buf.take ((buf.length / bs - 1) * bs))).2 ++
        (ciphertextStealing bs
          (processChunksN bs (buf.length / bs - 1) (⟨e, ep, false, iv⟩ : XtsCtx)
            (buf.take ((buf.length / bs - 1) * bs))).1
          (buf.drop ((buf.length / bs - 1) * bs))).2)).2.2 = buf
    rw [processAllInPlace_steal bs _ _ hbs (by rw [hEtot]; exact hbuf)
      (by rw [hEtot]; exact hmod)]
    rw [hEtot]
    rw [List.take_left' hEchunklen, List.drop_left' hEchunklen]
    show (processChunksN bs (buf.length / bs - 1) (⟨d, dp, true, iv⟩ : XtsCtx)
        (processChunksN bs (buf.length / bs - 1) (⟨e, ep, false, iv⟩ : XtsCtx)
          (buf.take ((buf.length / bs - 1) * bs))).2).2 ++
      (ciphertextStealing bs
        (processChunksN bs (buf.length / bs - 1) (⟨d, dp, true, iv⟩ : XtsCtx)
          (processChunksN bs (buf.length / bs - 1) (⟨e, ep, false, iv⟩ : XtsCtx)
            (buf.take ((buf.length / bs - 1) * bs))).2).1
        (ciphertextStealing bs
          (processChunksN bs (buf.length / bs - 1) (⟨e, ep, false, iv⟩ : XtsCtx)
            (buf.take ((buf.length / bs - 1) * bs))).1
          (buf.drop ((buf.length / bs - 1) * bs))).2).2 = buf
    rw [processChunksN_roundTrip bs e d ep dp false true (buf.length / bs - 1)
      iv (buf.take ((buf.length / bs - 1) * bs)) hiv (le_of_eq hheadlen.symm)
      hlen hinv]
    rw [processChunksN_ctx' bs (buf.length / bs - 1) d dp true iv, hEctx]
    rw [ciphertextStealing_roundTrip bs e d ep dp _ _ hivn hivnb hdroplen
      hlen hinv]
    exact List.take_append_drop _ buf
  · -- plain path: chunks only, the remainder rides along untouched
    have hq : (buf.length / bs) * bs ≤ buf.length := Nat.div_mul_le_self _ _
    have hElen : (processChunksN bs (buf.length / bs)
        (⟨e, ep, false, iv⟩ : XtsCtx) buf).2.length = buf.length :=
      processChunksN_length bs e ep false _ iv buf hiv hlen hq
    rw [processAllInPlace_noSteal bs _ buf hbuf hmod]
    show (processAllInPlace bs (⟨d, dp, true, iv⟩ : XtsCtx)
        (processChunksN bs (buf.length / bs) (⟨e, ep, false, iv⟩ : XtsCtx)
          buf).2).2.2 = buf
    rw [processAllInPlace_noSteal bs _ _ (by rw [hElen]; exact hbuf)
      (by rw [hElen]; exact hmod)]
    show (processChunksN bs ((processChunksN bs (buf.length / bs)
        (⟨e, ep, false, iv⟩ : XtsCtx) buf).2.length / bs)
        (⟨d, dp, true, iv⟩ : XtsCtx)
        (processChunksN bs (buf.length / bs) (⟨e, ep, false, iv⟩ : XtsCtx)
          buf).2).2 = buf
    rw [hElen]
    exact processChunksN_roundTrip bs e d ep dp false true (buf.length / bs)
      iv buf hiv hq hlen hinv

lemma xorEngineOne_invol (x : List Nat) :
    xorEngineOne (xorEngineOne x) = x := by
  induction x with
  | nil => rfl
  | cons a l ih =>
    simp only [xorEngineOne, List.map_cons, List.cons.injEq] at ih ⊢
    exact ⟨Nat.xor_cancel_right _ _, ih⟩

lemma xorEngineOne_length (x : List Nat) :
    (xorEngineOne x).length = x.length := by
  simp [xorEngineOne]

/-- Witness for C3 at block size 2, the self-inverse engine `xorEngineOne`,
initial tweak `[7, 9]` and the four-byte buffer `[1, 2, 3, 4]` (which takes
the stealing path). -/
theorem processAllInPlace_roundTrip_witness :
    (processAllInPlace 2 ⟨xorEngineOne, xorEnginePar, true, [7, 9]⟩
      (processAllInPlace 2 ⟨xorEngineOne, xorEnginePar, false, [7, 9]⟩
        [1, 2, 3, 4]).2.2).2.2 = [1, 2, 3, 4] :=
  processAllInPlace_roundTrip 2 xorEngineOne xorEngineOne xorEnginePar
    xorEnginePar [7, 9] [1, 2, 3, 4] (by decide) rfl (by decide)
    (fun y hy => by rw [xorEngineOne_length, hy])
    (fun y _ => xorEngineOne_invol y) (by decide)

end XtsCore
